import Mathlib

/-!
Verification of the Degenter backend indexer against its specification.

The development shallowly embeds the parts of the JavaScript source that the
claims refer to:

* `bin/start-indexer.js` — the driver loop (`commitInOrder`, `drainAll`,
  pipeline fill), both as an event trace and as a state machine;
* `core/ohlcv.js` — batch aggregation (`aggregateBatch`), previous-close
  lookup and the `INSERT .. ON CONFLICT` candle upsert;
* `core/block-processor.js` — the per-height phase structure
  (scan with interim task flush, Phase 1 pool upserts, Phase 2 tasks);
* `core/prices.js` — `priceFromReserves_UZIGQuote` and the upsert guard;
* `core/trades.js` — the trades `INSERT .. ON CONFLICT DO NOTHING`;
* `jobs/holders-refresher.js` — `refreshHoldersOnce`;
* `lib/rpc.js` / `lib/lcd.js` — `httpJSON` retry loop;
* `core/tokens.js` — `upsertTokenMinimal`.

Machine integers are modelled as `Nat`; JavaScript floating-point arithmetic
on prices and reserves is modelled exactly over `ℚ` (the source values are
decimal integers and the claims are about the algebraic relationships).
-/

namespace Degenter

/-! ### Driver (bin/start-indexer.js)

`commitInOrder` iterates the in-flight heights in ascending order; for each
height it awaits the processing promise, calls `writeCheckpoint(h)`,
and then `drainAll()` (which awaits `drainTrades`, `drainOHLCV` and
`drainPoolState` jointly).  `DriverEvent.drainAll` stands for the completed
join of all three writer drains. -/

inductive DriverEvent where
  | drainAll : DriverEvent
  | checkpoint : Nat → DriverEvent
deriving DecidableEq, Repr

/-- Ascending sort used by `commitInOrder`
(`Array.from(inflight.keys()).sort((a,b)=>a-b)`). -/
def sortHeights (hs : List Nat) : List Nat := hs.mergeSort (· ≤ ·)

/-- Events emitted while committing one height `h`:
`await writeCheckpoint(h); ...; await drainAll()`. -/
def commitStep (h : Nat) : List DriverEvent :=
  [DriverEvent.checkpoint h, DriverEvent.drainAll]

/-- Event trace of one `commitInOrder()` call over the in-flight heights `hs`. -/
def commitTrace (hs : List Nat) : List DriverEvent :=
  (sortHeights hs).flatMap commitStep

/-- Index of the first occurrence of event `e` in trace `es`. -/
def firstIdx (es : List DriverEvent) (e : DriverEvent) : Nat :=
  es.findIdx (· = e)

/-- Reading of claim C1 on the trace of a commit of height `h`: the drain of the
three batch writers occurs before the checkpoint write for `h`. -/
def drainsPrecedeCheckpoint (es : List DriverEvent) (h : Nat) : Prop :=
  firstIdx es DriverEvent.drainAll < firstIdx es (DriverEvent.checkpoint h)

instance (es : List DriverEvent) (h : Nat) : Decidable (drainsPrecedeCheckpoint es h) :=
  inferInstanceAs (Decidable (_ < _))

/-- State of the driver loop in `main()`: the next height to schedule
(`current`), the pipeline of in-flight heights, and the heights checkpointed so
far, in the order in which `writeCheckpoint` was called. -/
structure DriverState where
  current : Nat
  inflight : List Nat
  committed : List Nat
deriving DecidableEq, Repr

/-- One iteration of the pipeline-fill loop: `const h = current++;
inflight.set(h, ...)`. -/
def fillOne (s : DriverState) : DriverState :=
  { current := s.current + 1
    inflight := s.inflight ++ [s.current]
    committed := s.committed }

/-- Fill the pipeline with `k` consecutive heights. -/
def fill : Nat → DriverState → DriverState
  | 0, s => s
  | k + 1, s => fill k (fillOne s)

/-- State effect of `commitInOrder()`: every in-flight height is awaited and
checkpointed in ascending order, and removed from the in-flight map. -/
def commitInOrder (s : DriverState) : DriverState :=
  { current := s.current
    inflight := []
    committed := s.committed ++ sortHeights s.inflight }

/-- One iteration of the outer `while` loop of `main()`: fill the pipeline with
`k` new heights (bounded by `PIPELINE_DEPTH` and the chain tip, which only
constrain `k`), then `commitInOrder()`. -/
def driverRound (s : DriverState) (k : Nat) : DriverState :=
  commitInOrder (fill k s)

/-- A whole driver run starting at height `start`; `rounds` lists how many
heights each outer-loop iteration managed to schedule. -/
def driverRun (start : Nat) (rounds : List Nat) : DriverState :=
  rounds.foldl driverRound { current := start, inflight := [], committed := [] }

end Degenter

namespace Degenter

/-! ### OHLCV batch writer (core/ohlcv.js)

Items pushed by `upsertOHLCV1m`; `bucket_start` is the minute bucket as an
integer number of minutes (the previous-minute key in `fetchPrevCloses` is
`bucket_start - 1`).  Prices and volumes are modelled exactly over `ℚ`. -/

structure OhlcvItem where
  pool_id : Nat
  bucket_start : Int
  price : ℚ
  vol_zig : ℚ
  trade_inc : Nat
  liquidity_zig : Option ℚ
deriving DecidableEq, Repr

/-- One aggregated row per `(pool_id, bucket_start)` built by `aggregateBatch`. -/
structure OhlcvRow where
  pool_id : Nat
  bucket_start : Int
  high : ℚ
  low : ℚ
  close : ℚ
  volume_zig : ℚ
  trade_count : Nat
  liquidity_zig : Option ℚ
deriving DecidableEq, Repr

/-- Row created when a key is first seen in the batch
(`map.set(k, { high: it.price, low: it.price, close: it.price, ... })`). -/
def initRow (it : OhlcvItem) : OhlcvRow :=
  { pool_id := it.pool_id
    bucket_start := it.bucket_start
    high := it.price
    low := it.price
    close := it.price
    volume_zig := it.vol_zig
    trade_count := it.trade_inc
    liquidity_zig := it.liquidity_zig }

/-- Update of an existing aggregate row by a later item of the same key. -/
def updRow (r : OhlcvRow) (it : OhlcvItem) : OhlcvRow :=
  { r with
    high := max r.high it.price
    low := min r.low it.price
    close := it.price
    volume_zig := r.volume_zig + it.vol_zig
    trade_count := r.trade_count + it.trade_inc
    liquidity_zig := match it.liquidity_zig with
      | some l => some l
      | none => r.liquidity_zig }

/-- Key of an item, mirroring the JS map key `keyOf(pool_id, bucket_start)`. -/
def itemKey (it : OhlcvItem) : Nat × Int := (it.pool_id, it.bucket_start)

/-- Key of an aggregate row. -/
def rowKey (r : OhlcvRow) : Nat × Int := (r.pool_id, r.bucket_start)

/-- Insertion-ordered map update underlying the JS `Map` in `aggregateBatch`:
update the first row with the item's key, else append a fresh row. -/
def aggInsert (rs : List OhlcvRow) (it : OhlcvItem) : List OhlcvRow :=
  match rs with
  | [] => [initRow it]
  | r :: rest =>
    if rowKey r == itemKey it then
      updRow r it :: rest
    else
      r :: aggInsert rest it

/-- `aggregateBatch(items)`: collapse the batch to one row per key, in batch
arrival order. -/
def aggregateBatch (items : List OhlcvItem) : List OhlcvRow :=
  items.foldl aggInsert []

/-- Stored `ohlcv_1m` row. -/
structure Candle where
  pool_id : Nat
  bucket_start : Int
  open_ : ℚ
  high : ℚ
  low : ℚ
  close : ℚ
  volume_zig : ℚ
  trade_count : Nat
  liquidity_zig : Option ℚ
deriving DecidableEq, Repr

/-- Key of a stored candle. -/
def candleKey (c : Candle) : Nat × Int := (c.pool_id, c.bucket_start)

/-- Key predicate on stored candles. -/
def candleKeyEq (pid : Nat) (b : Int) (c : Candle) : Bool :=
  candleKey c == (pid, b)

/-- Key predicate on aggregate rows. -/
def rowKeyEq (pid : Nat) (b : Int) (r : OhlcvRow) : Bool :=
  rowKey r == (pid, b)

/-- `fetchPrevCloses` restricted to one key: the close of the candle stored at
`(pool_id, bucket_start - 1 minute)`, if any. -/
def fetchPrevClose (store : List Candle) (pid : Nat) (b : Int) : Option ℚ :=
  (store.find? (candleKeyEq pid (b - 1))).map (·.close)

/-- Rows of the single multi-row INSERT, paired with their `open` value
(`const openVal = (prevClose ?? r.close)`). -/
def rowsWithOpens (store : List Candle) (items : List OhlcvItem) : List (OhlcvRow × ℚ) :=
  (aggregateBatch items).map fun r =>
    (r, (fetchPrevClose store r.pool_id r.bucket_start).getD r.close)

/-- ON-CONFLICT merge of an incoming aggregate row into an existing candle
(`GREATEST`/`LEAST`/`close = EXCLUDED.close`/sums/`COALESCE`). -/
def mergeCandle (c : Candle) (r : OhlcvRow) : Candle :=
  { c with
    high := max c.high r.high
    low := min c.low r.low
    close := r.close
    volume_zig := c.volume_zig + r.volume_zig
    trade_count := c.trade_count + r.trade_count
    liquidity_zig := match r.liquidity_zig with
      | some l => some l
      | none => c.liquidity_zig }

/-- `INSERT .. ON CONFLICT (pool_id, bucket_start) DO UPDATE` for one row. -/
def upsertCandle (store : List Candle) (r : OhlcvRow) (openVal : ℚ) : List Candle :=
  if store.any (candleKeyEq r.pool_id r.bucket_start) then
    store.map fun c =>
      if candleKeyEq r.pool_id r.bucket_start c then mergeCandle c r else c
  else
    store ++ [{ pool_id := r.pool_id
                bucket_start := r.bucket_start
                open_ := openVal
                high := r.high
                low := r.low
                close := r.close
                volume_zig := r.volume_zig
                trade_count := r.trade_count
                liquidity_zig := r.liquidity_zig }]

/-- `ohlcvQueue.flushFn(items)`: aggregate, fetch previous closes (against the
pre-flush store), compute opens, and apply the single multi-row upsert. -/
def flushOHLCV (store : List Candle) (items : List OhlcvItem) : List Candle :=
  (rowsWithOpens store items).foldl (fun st p => upsertCandle st p.1 p.2) store

/-- Lookup of a stored candle by key. -/
def findCandle (store : List Candle) (pid : Nat) (b : Int) : Option Candle :=
  store.find? (candleKeyEq pid b)

/-- Modelled from the spec (for stating claim C2): the first observed price of
minute `b` for pool `pid` in the batch, in arrival order. -/
def specFirstObservedPrice (items : List OhlcvItem) (pid : Nat) (b : Int) : Option ℚ :=
  (items.find? (fun it => itemKey it == (pid, b))).map (·.price)

/-- Last observed price of minute `b` for pool `pid` in the batch, in arrival
order (the batch close for that key). -/
def lastObservedPrice (items : List OhlcvItem) (pid : Nat) (b : Int) : Option ℚ :=
  ((items.filter (fun it => itemKey it == (pid, b))).getLast?).map (·.price)

/-- The aggregate row the flush writes for a given key, if the key occurs in
the batch. -/
def aggAt (items : List OhlcvItem) (pid : Nat) (b : Int) : Option OhlcvRow :=
  (aggregateBatch items).find? (rowKeyEq pid b)

/-- Open value written by the flush for a given key, if the key occurs in the
batch. -/
def writtenOpen (store : List Candle) (items : List OhlcvItem) (pid : Nat) (b : Int) : Option ℚ :=
  ((rowsWithOpens store items).find? (fun p => rowKeyEq pid b p.1)).map (·.2)

/-- Folding the item stream of one key into its aggregate row; used to
characterize `aggregateBatch` key by key. -/
def aggFold (l : List OhlcvItem) : Option OhlcvRow :=
  l.foldl
    (fun acc it =>
      match acc with
      | none => some (initRow it)
      | some r => some (updRow r it))
    none

/-- Candle1m per-row invariant exactly as claim C6 states it:
`low ≤ open ≤ high`, `low ≤ close ≤ high`, `low ≤ high`, `volume ≥ 0`,
`trade_count ≥ 0`. -/
def candleBounds (c : Candle) : Prop :=
  c.low ≤ c.open_ ∧ c.open_ ≤ c.high ∧ c.low ≤ c.close ∧ c.close ≤ c.high ∧
    c.low ≤ c.high ∧ 0 ≤ c.volume_zig ∧ 0 ≤ c.trade_count

instance (c : Candle) : Decidable (candleBounds c) := by
  unfold candleBounds; infer_instance

/-- Amended Candle1m per-row invariant: as C6 but without the bound on `open`
(which the prior-close rule can place outside `[low, high]`). -/
def candleBoundsAmended (c : Candle) : Prop :=
  c.low ≤ c.close ∧ c.close ≤ c.high ∧ c.low ≤ c.high ∧ 0 ≤ c.volume_zig ∧
    0 ≤ c.trade_count

end Degenter


namespace Degenter

/-! ### Block processor (core/block-processor.js)

`processHeight` collects, per transaction, the pool-creation tasks
(`poolTasks`) and the swap/liquidity tasks (`tasks`, here `p2`, listing the
pair contract each task touches).  After each transaction it runs the pending
phase-2 tasks early when `tasks.length >= MAX_PENDING_TASKS`
(`BLOCK_PROC_MAX_TASKS`, default 5000).  After the scan it runs Phase 1
(pool upserts) and then the remaining Phase 2 tasks.  A phase-2 task looks the
pool up (cache backed by the datastore) and writes the Trade only when the
pool row exists (`if (!pool) return`). -/

structure Tx where
  newPools : List String
  p2 : List String
deriving DecidableEq, Repr

/-- Observable actions of `processHeight`, in execution order. -/
inductive BPEvent where
  | poolUpsert : String → BPEvent
  | taskRun : String → BPEvent
  | tradeWrite : String → BPEvent
deriving DecidableEq, Repr

/-- Datastore pools (pair contracts with a Pool row) plus the event trace. -/
structure BPState where
  pools : List String
  trace : List BPEvent
deriving DecidableEq, Repr

/-- Run one phase-2 task: look up the pool; if present, write the Trade,
otherwise skip (`if (!pool) { warn(...); return; }`). -/
def runTask (s : BPState) (p : String) : BPState :=
  if p ∈ s.pools then
    { s with trace := s.trace ++ [BPEvent.taskRun p, BPEvent.tradeWrite p] }
  else
    { s with trace := s.trace ++ [BPEvent.taskRun p] }

/-- Run a list of phase-2 tasks (`runWithConcurrency(tasks, ...)`; the joined
completion order is modelled sequentially — no task of a later phase starts
before all of these finish). -/
def runTasks (s : BPState) (ps : List String) : BPState :=
  ps.foldl runTask s

/-- Events a task list appends given the (unchanging) pool set. -/
def taskEvents (pools : List String) : List String → List BPEvent
  | [] => []
  | p :: ps =>
    (if p ∈ pools then [BPEvent.taskRun p, BPEvent.tradeWrite p]
     else [BPEvent.taskRun p]) ++ taskEvents pools ps

/-- Accumulator of the per-transaction scan loop. -/
structure ScanAcc where
  poolTasks : List String
  pending : List String
  st : BPState
deriving DecidableEq, Repr

/-- Scan one transaction: collect its `create_pair` pool tasks and phase-2
tasks; then, as at the end of each loop iteration, flush the pending tasks
early if `tasks.length >= MAX_PENDING_TASKS`. -/
def scanTx (maxPending : Nat) (acc : ScanAcc) (tx : Tx) : ScanAcc :=
  if maxPending ≤ (acc.pending ++ tx.p2).length then
    { poolTasks := acc.poolTasks ++ tx.newPools
      pending := []
      st := runTasks acc.st (acc.pending ++ tx.p2) }
  else
    { poolTasks := acc.poolTasks ++ tx.newPools
      pending := acc.pending ++ tx.p2
      st := acc.st }

/-- Phase 1: run the pool-creation tasks (`upsertPool` then cache refresh). -/
def phase1 (s : BPState) (ps : List String) : BPState :=
  ps.foldl
    (fun s p =>
      { pools := if p ∈ s.pools then s.pools else s.pools ++ [p]
        trace := s.trace ++ [BPEvent.poolUpsert p] })
    s

/-- Scan of a whole block: fold `scanTx` over the transactions from the empty
accumulator. -/
def scanBlock (maxPending : Nat) (pools0 : List String) (txs : List Tx) : ScanAcc :=
  txs.foldl (scanTx maxPending) ⟨[], [], ⟨pools0, []⟩⟩

/-- One `processHeight(h)` call: scan all transactions (with interim flushes),
then Phase 1 (pools), then Phase 2 (remaining tasks). -/
def processHeight (maxPending : Nat) (pools0 : List String) (txs : List Tx) : BPState :=
  runTasks
    (phase1 (scanBlock maxPending pools0 txs).st (scanBlock maxPending pools0 txs).poolTasks)
    (scanBlock maxPending pools0 txs).pending

/-- Reading of claim C4 on the trace: every phase-2 task run for pool `p`
happens strictly after the Phase-1 pool upsert of `p`. -/
def upsertBeforeEveryTask (tr : List BPEvent) (p : String) : Prop :=
  ∀ i, i < tr.length → ∀ j, j < tr.length →
    tr[i]? = some (BPEvent.taskRun p) → tr[j]? = some (BPEvent.poolUpsert p) → j < i

instance (tr : List BPEvent) (p : String) : Decidable (upsertBeforeEveryTask tr p) := by
  unfold upsertBeforeEveryTask
  infer_instance

end Degenter

namespace Degenter

/-! ### Prices (core/prices.js)

`priceFromReserves_UZIGQuote` over reserves parsed by `fetchPoolReserves`
(amounts are digit strings, hence `Nat`).  The JS floating-point arithmetic is
modelled exactly over `ℚ`; `hq > 0`/`hb > 0` are re-checked after division as
in the source. -/

structure Reserve where
  denom : String
  amount_base : Nat
deriving DecidableEq, Repr

/-- `priceFromReserves_UZIGQuote({base_denom, base_exp}, reserves)`. -/
def priceFromReserves_UZIGQuote (base_denom : String) (base_exp : Nat)
    (reserves : List Reserve) : Option ℚ :=
  match reserves.find? (fun r => r.denom == base_denom),
      reserves.find? (fun r => r.denom == "uzig") with
  | some rb, some rq =>
    if 0 < rb.amount_base ∧ 0 < rq.amount_base then
      if (0 : ℚ) < (rb.amount_base : ℚ) / 10 ^ base_exp ∧
          (0 : ℚ) < (rq.amount_base : ℚ) / 10 ^ 6 then
        some (((rq.amount_base : ℚ) / 10 ^ 6) / ((rb.amount_base : ℚ) / 10 ^ base_exp))
      else none
    else none
  | _, _ => none

/-- Caller guard in core/block-processor.js:
`price != null && Number.isFinite(price) && price > 0` (every `ℚ` is finite). -/
def shouldUpsertPrice (price : Option ℚ) : Bool :=
  match price with
  | some p => decide (0 < p)
  | none => false

end Degenter

namespace Degenter

/-! ### Trades writer (core/trades.js)

`INSERT INTO trades ... ON CONFLICT (created_at, tx_hash, pool_id, msg_index)
DO NOTHING`; `payload` stands for all non-key columns. -/

structure TradeRow where
  created_at : Nat
  tx_hash : String
  pool_id : Nat
  msg_index : Nat
  payload : String
deriving DecidableEq, Repr

/-- Natural key of a trade row. -/
def tradeKey (t : TradeRow) : Nat × String × Nat × Nat :=
  (t.created_at, t.tx_hash, t.pool_id, t.msg_index)

/-- Key presence in the trades table. -/
def hasTradeKey (tbl : List TradeRow) (k : Nat × String × Nat × Nat) : Bool :=
  tbl.any (fun t => tradeKey t == k)

/-- Insert one row; a conflicting natural key leaves the table unchanged. -/
def insertTradeRow (tbl : List TradeRow) (t : TradeRow) : List TradeRow :=
  if hasTradeKey tbl (tradeKey t) then tbl else tbl ++ [t]

/-- The batched multi-row INSERT (rows processed in statement order; a row
conflicting with the table or an earlier row of the same statement is
skipped). -/
def insertTrades (tbl : List TradeRow) (rows : List TradeRow) : List TradeRow :=
  rows.foldl insertTradeRow tbl

end Degenter

namespace Degenter

/-! ### Tokens (core/tokens.js)

`upsertTokenMinimal(denom)`:
`INSERT INTO tokens(denom, exponent) VALUES ($1, 0) ON CONFLICT (denom) DO
NOTHING RETURNING token_id`, then a SELECT fallback when the row existed.
`nextId` models the `BIGSERIAL` id the insert would allocate. -/

structure TokenRow where
  denom : String
  exponent : Nat
  token_id : Nat
deriving DecidableEq, Repr

/-- Minimal token stub creation on first sighting of a denom. -/
def upsertTokenMinimal (tbl : List TokenRow) (denom : String) (nextId : Nat) :
    List TokenRow × Option Nat :=
  if tbl.any (fun t => t.denom == denom) then
    (tbl, (tbl.find? (fun t => t.denom == denom)).map (·.token_id))
  else
    (tbl ++ [⟨denom, 0, nextId⟩], some nextId)

end Degenter

namespace Degenter

/-! ### Holders refresher (jobs/holders-refresher.js)

`refreshHoldersOnce(token_id, denom)` for a fixed token: walk the LCD pages,
upsert `(address → balance_base)` per item and collect the `seen` set; then in
a final transaction set `balance_base = 0` for every address not seen and
upsert `holders_count = count(balance_base > 0)`.  An item's amount is
`digitsOrNull(it.balance?.amount || '0')`: `none` models a non-digit string
(stored as SQL NULL), `some n` a digit string. -/

structure OwnerItem where
  address : String
  amount : Option Nat
deriving DecidableEq, Repr

/-- One page of `denom_owners`. -/
structure OwnersPage where
  items : List OwnerItem
deriving DecidableEq, Repr

/-- The holders rows of the fixed token: `(address, balance_base)`. -/
abbrev HoldersTable := List (String × Option Nat)

/-- Upsert of one page item
(`INSERT INTO holders ... ON CONFLICT (token_id, address) DO UPDATE SET
balance_base = EXCLUDED.balance_base`). -/
def upsertHolder (tbl : HoldersTable) (addr : String) (amt : Option Nat) : HoldersTable :=
  if tbl.any (fun r => r.1 == addr) then
    tbl.map (fun r => if r.1 == addr then (r.1, amt) else r)
  else
    tbl ++ [(addr, amt)]

/-- Apply all items of one page, in order. -/
def applyPage (tbl : HoldersTable) (pg : OwnersPage) : HoldersTable :=
  pg.items.foldl (fun t it => upsertHolder t it.address it.amount) tbl

/-- The paging sweep over all fetched pages. -/
def sweepPages (tbl : HoldersTable) (pages : List OwnersPage) : HoldersTable :=
  pages.foldl applyPage tbl

/-- Addresses accumulated in the `seen` set during the sweep. -/
def seenList (pages : List OwnersPage) : List String :=
  (pages.flatMap (·.items)).map (·.address)

/-- Final normalization (`UPDATE holders SET balance_base = '0' WHERE
address NOT IN (seen)`). -/
def zeroOutNotSeen (tbl : HoldersTable) (seen : List String) : HoldersTable :=
  tbl.map (fun r => if r.1 ∈ seen then r else (r.1, some 0))

/-- SQL `balance_base::NUMERIC > 0` (NULL is not positive). -/
def isPositiveBal : Option Nat → Bool
  | some n => decide (0 < n)
  | none => false

/-- `SELECT COUNT(*) FROM holders WHERE token_id = $1 AND
balance_base::NUMERIC > 0`. -/
def positiveCount (tbl : HoldersTable) : Nat :=
  (tbl.filter (fun r => isPositiveBal r.2)).length

/-- The whole `refreshHoldersOnce` sweep: final holders table and the upserted
`holders_count`. -/
def refreshHoldersOnce (tbl : HoldersTable) (pages : List OwnersPage) :
    HoldersTable × Nat :=
  (zeroOutNotSeen (sweepPages tbl pages) (seenList pages),
    positiveCount (zeroOutNotSeen (sweepPages tbl pages) (seenList pages)))

/-- Whether the stored balance of `a` is positive. -/
def isPositiveHolder (tbl : HoldersTable) (a : String) : Bool :=
  match tbl.find? (fun r => r.1 == a) with
  | some r => isPositiveBal r.2
  | none => false

/-- The last balance reported for address `a` across the sweep's pages, in
page-then-item order (the value its row holds after the sweep). -/
def lastReported (pages : List OwnersPage) (a : String) : Option (Option Nat) :=
  (((pages.flatMap (·.items)).filter (fun it => it.address == a)).getLast?).map (·.amount)

end Degenter

namespace Degenter

/-! ### RPC/LCD client (lib/rpc.js and lib/lcd.js)

`httpJSON(baseList, idxRef, path)`: an unbounded retry loop; attempt `n` hits
`baseList[(idxRef + n) % baseList.length]`; a 429/5xx status throws into the
catch (retry after `min(1000*1.5^n, 10000) + U[0,250)` ms), any other status
has its body parsed as JSON — a parse failure also lands in the catch.  The
run is modelled against a finite trace of responses; `retrying` means the
trace was exhausted with the loop still going. -/

structure HttpResp where
  status : Nat
  body : Option String
deriving DecidableEq, Repr

inductive FetchOutcome where
  | ok : Nat → String → FetchOutcome
  | noEndpoints : FetchOutcome
  | retrying : FetchOutcome
deriving DecidableEq, Repr

/-- `r.status === 429 || r.status >= 500` — the only statuses thrown before
parsing. -/
def retriableStatus (r : HttpResp) : Bool :=
  r.status == 429 || 500 ≤ r.status

/-- Backoff before retry `attempt`:
`Math.min(1000 * Math.pow(1.5, attempt), 10_000) + Math.floor(Math.random()*250)`;
`jitter` is the random draw (in `[0, 250)`). -/
def backoffMs (attempt : Nat) (jitter : Nat) : ℚ :=
  min (1000 * (3 / 2) ^ attempt) 10000 + jitter

/-- The retry loop from attempt `n` on, against the remaining response trace;
returns the outcome and the backoffs slept. -/
def httpAttempts (jit : Nat → Nat) : Nat → List HttpResp → FetchOutcome × List ℚ
  | _, [] => (FetchOutcome.retrying, [])
  | n, r :: rest =>
    match (if retriableStatus r then none else r.body) with
    | some b => (FetchOutcome.ok n b, [])
    | none =>
      ((httpAttempts jit (n + 1) rest).1,
        backoffMs n (jit n) :: (httpAttempts jit (n + 1) rest).2)

/-- `httpJSON`: throws when no endpoints are configured, else runs the loop. -/
def httpJSON (bases : List String) (idxRef : Nat) (jit : Nat → Nat)
    (trace : List HttpResp) : FetchOutcome × List ℚ :=
  if bases.isEmpty then (FetchOutcome.noEndpoints, [])
  else httpAttempts jit 0 trace

/-- Endpoint used by attempt `n`:
`baseList[(idxRef + attempt) % baseList.length]`. -/
def endpointAt (bases : List String) (idxRef attempt : Nat) : Option String :=
  bases[(idxRef + attempt) % bases.length]?

end Degenter

namespace Degenter

/-! ### Theorems about the driver (claims C1 and C3) -/

theorem sortHeights_eq_self {l : List Nat} (h : List.Sorted (· ≤ ·) l) :
    sortHeights l = l :=
  List.mergeSort_eq_self h

theorem sorted_range_map_add (c k : Nat) :
    List.Sorted (· ≤ ·) ((List.range k).map (c + ·)) :=
  (List.pairwise_lt_range k).map _ (fun a b hab => by omega)

theorem range_map_shift (c n : Nat) :
    (List.range (n + 1)).map (c + ·) = c :: (List.range n).map ((c + 1) + ·) := by
  rw [List.range_succ_eq_map, List.map_cons, List.map_map]
  refine congrArg₂ List.cons (by omega) ?_
  exact List.map_congr_left fun a _ => by simp [Function.comp]; omega

theorem fill_spec (k : Nat) (s : DriverState) :
    fill k s =
      { current := s.current + k
        inflight := s.inflight ++ (List.range k).map (s.current + ·)
        committed := s.committed } := by
  induction k generalizing s with
  | zero => simp [fill]
  | succ n ih =>
    rw [fill, ih]
    simp only [fillOne, range_map_shift]
    refine congrArg₂ (DriverState.mk · · s.committed) (by omega) ?_
    simp

theorem driverRound_spec (c : Nat) (com : List Nat) (k : Nat) :
    driverRound { current := c, inflight := [], committed := com } k =
      { current := c + k
        inflight := []
        committed := com ++ (List.range k).map (c + ·) } := by
  rw [driverRound, fill_spec]
  simp only [commitInOrder, List.nil_append]
  rw [sortHeights_eq_self (sorted_range_map_add c k)]

theorem driverRun_aux (rounds : List Nat) (c : Nat) (com : List Nat) :
    (rounds.foldl driverRound { current := c, inflight := [], committed := com }).committed =
      com ++ (List.range rounds.sum).map (c + ·) := by
  induction rounds generalizing c com with
  | nil => simp
  | cons r t ih =>
    rw [List.foldl_cons, driverRound_spec, ih, List.sum_cons, List.range_add]
    simp only [List.map_append, List.map_map, List.append_assoc]
    refine congrArg _ (congrArg _ (List.map_congr_left fun a _ => ?_))
    simp [Function.comp]; omega

/-- C3: in every run of the driver, the checkpointed heights are exactly the
consecutive range starting at the first scheduled height, in strictly ascending
commit order — so a height is never committed before every lower scheduled
height has been committed — and the sequence of values successively persisted
into `index_state.last_height` (one per `writeCheckpoint` call, in call order)
is monotonically non-decreasing. -/
theorem driver_checkpoints_strictly_ascending (start : Nat) (rounds : List Nat) :
    (driverRun start rounds).committed = (List.range rounds.sum).map (start + ·) ∧
    ((driverRun start rounds).committed).Pairwise (· < ·) ∧
    ((driverRun start rounds).committed).Pairwise (· ≤ ·) := by
  have hc : (driverRun start rounds).committed = (List.range rounds.sum).map (start + ·) := by
    rw [driverRun, driverRun_aux]; simp
  refine ⟨hc, ?_, ?_⟩
  · rw [hc]; exact (List.pairwise_lt_range _).map _ (fun a b hab => by omega)
  · rw [hc]; exact (List.pairwise_lt_range _).map _ (fun a b hab => by omega)

/-- C1 counterexample: committing a single in-flight height `5` emits the trace
`[checkpoint 5, drainAll]` — the checkpoint write for the height precedes the
drain of the three batch writers, so the claim that all three drains complete
before the checkpoint write is false on this input. -/
theorem commitTrace_checkpoint_precedes_drain :
    commitTrace [5] = [DriverEvent.checkpoint 5, DriverEvent.drainAll] ∧
    ¬ drainsPrecedeCheckpoint (commitTrace [5]) 5 := by
  have h5 : commitTrace [5] = [DriverEvent.checkpoint 5, DriverEvent.drainAll] := by
    rw [commitTrace, sortHeights, List.mergeSort_singleton]; rfl
  refine ⟨h5, ?_⟩
  rw [drainsPrecedeCheckpoint, h5]
  decide

theorem flatMap_commitStep_spec (l : List Nat) (h : Nat) (hmem : h ∈ l) :
    ∃ i, (l.flatMap commitStep)[i]? = some (DriverEvent.checkpoint h) ∧
      (l.flatMap commitStep)[i + 1]? = some DriverEvent.drainAll := by
  induction l with
  | nil => cases hmem
  | cons a t ih =>
    rcases List.mem_cons.mp hmem with rfl | hmem
    · exact ⟨0, by simp [commitStep], by simp [commitStep]⟩
    · obtain ⟨i, h1, h2⟩ := ih hmem
      refine ⟨i + 2, ?_, ?_⟩
      · rw [List.flatMap_cons, List.getElem?_append, if_neg (by simp [commitStep])]
        simpa [commitStep] using h1
      · rw [List.flatMap_cons, List.getElem?_append, if_neg (by simp [commitStep])]
        simpa [commitStep] using h2

/-- C1 amended: on commit of a height `h`, the driver writes the checkpoint for
`h` first and immediately afterwards drains all three batch writers; the drain
follows (rather than precedes) each checkpoint write. -/
theorem commitTrace_drain_follows_checkpoint (hs : List Nat) (h : Nat) (hmem : h ∈ hs) :
    ∃ i, (commitTrace hs)[i]? = some (DriverEvent.checkpoint h) ∧
      (commitTrace hs)[i + 1]? = some DriverEvent.drainAll := by
  refine flatMap_commitStep_spec _ h ?_
  rw [sortHeights, List.mem_mergeSort]
  exact hmem

/-- Witness for the amended C1 theorem at the concrete in-flight set `[5]`. -/
theorem commitTrace_drain_follows_checkpoint_witness :
    ∃ i, (commitTrace [5])[i]? = some (DriverEvent.checkpoint 5) ∧
      (commitTrace [5])[i + 1]? = some DriverEvent.drainAll :=
  commitTrace_drain_follows_checkpoint [5] 5 (by decide)

end Degenter

namespace Degenter

/-! ### Theorems about the OHLCV writer (claims C2 and C6) -/

theorem rowKey_updRow (r : OhlcvRow) (it : OhlcvItem) : rowKey (updRow r it) = rowKey r := rfl

theorem rowKey_initRow (it : OhlcvItem) : rowKey (initRow it) = itemKey it := rfl

theorem aggInsert_mem_weak {rs : List OhlcvRow} {it : OhlcvItem} {r : OhlcvRow}
    (h : r ∈ aggInsert rs it) :
    r ∈ rs ∨ r = initRow it ∨ ∃ r' ∈ rs, r = updRow r' it := by
  induction rs with
  | nil =>
    rw [aggInsert, List.mem_singleton] at h
    exact Or.inr (Or.inl h)
  | cons a t ih =>
    rw [aggInsert] at h
    by_cases hk : (rowKey a == itemKey it) = true
    · rw [if_pos hk] at h
      rcases List.mem_cons.mp h with rfl | hmem
      · exact Or.inr (Or.inr ⟨a, List.mem_cons_self a t, rfl⟩)
      · exact Or.inl (List.mem_cons_of_mem a hmem)
    · rw [if_neg hk] at h
      rcases List.mem_cons.mp h with rfl | hmem
      · exact Or.inl (List.mem_cons_self r t)
      · rcases ih hmem with h1 | h2 | ⟨r', hr', rfl⟩
        · exact Or.inl (List.mem_cons_of_mem a h1)
        · exact Or.inr (Or.inl h2)
        · exact Or.inr (Or.inr ⟨r', List.mem_cons_of_mem a hr', rfl⟩)

theorem foldl_aggInsert_bounds (items : List OhlcvItem) (acc : List OhlcvRow)
    (hacc : ∀ r ∈ acc,
      r.low ≤ r.close ∧ r.close ≤ r.high ∧ r.low ≤ r.high ∧ 0 ≤ r.volume_zig)
    (hvol : ∀ it ∈ items, 0 ≤ it.vol_zig) :
    ∀ r ∈ items.foldl aggInsert acc,
      r.low ≤ r.close ∧ r.close ≤ r.high ∧ r.low ≤ r.high ∧ 0 ≤ r.volume_zig := by
  induction items generalizing acc with
  | nil => simpa using hacc
  | cons it rest ih =>
    rw [List.foldl_cons]
    refine ih _ ?_ fun x hx => hvol x (List.mem_cons_of_mem it hx)
    intro r hr
    have hv : 0 ≤ it.vol_zig := hvol it (List.mem_cons_self it rest)
    rcases aggInsert_mem_weak hr with hmem | rfl | ⟨r', hr', rfl⟩
    · exact hacc r hmem
    · exact ⟨le_refl _, le_refl _, le_refl _, hv⟩
    · obtain ⟨h1, h2, h3, h4⟩ := hacc r' hr'
      refine ⟨?_, ?_, ?_, ?_⟩
      · exact min_le_right _ _
      · exact le_max_right _ _
      · exact le_trans (min_le_right _ _) (le_max_right _ _)
      · exact add_nonneg h4 hv

theorem aggregateBatch_bounds (items : List OhlcvItem)
    (hvol : ∀ it ∈ items, 0 ≤ it.vol_zig) :
    ∀ r ∈ aggregateBatch items,
      r.low ≤ r.close ∧ r.close ≤ r.high ∧ r.low ≤ r.high ∧ 0 ≤ r.volume_zig :=
  foldl_aggInsert_bounds items [] (by simp) hvol

theorem aggInsert_find? (rs : List OhlcvRow) (it : OhlcvItem) (pid : Nat) (b : Int) :
    (aggInsert rs it).find? (rowKeyEq pid b) =
      if itemKey it == (pid, b) then
        some
          (match rs.find? (rowKeyEq pid b) with
           | some r => updRow r it
           | none => initRow it)
      else rs.find? (rowKeyEq pid b) := by
  induction rs with
  | nil =>
    rw [aggInsert]
    by_cases hk : (itemKey it == (pid, b)) = true
    · rw [if_pos hk]
      have : rowKeyEq pid b (initRow it) = true := by
        simpa [rowKeyEq, rowKey_initRow] using hk
      simp [List.find?, this]
    · rw [if_neg hk]
      have : rowKeyEq pid b (initRow it) = false := by
        simpa [rowKeyEq, rowKey_initRow] using hk
      simp [List.find?, this]
  | cons a t ih =>
    rw [aggInsert]
    by_cases ha : (rowKey a == itemKey it) = true
    · rw [if_pos ha]
      have ha' : rowKey a = itemKey it := by simpa using ha
      by_cases hk : (itemKey it == (pid, b)) = true
      · rw [if_pos hk]
        have hk' : itemKey it = (pid, b) := by simpa using hk
        have hpa : rowKeyEq pid b a = true := by simp [rowKeyEq, ha', hk']
        have hpu : rowKeyEq pid b (updRow a it) = true := by
          simpa [rowKeyEq, rowKey_updRow] using hpa
        simp [List.find?, hpa, hpu]
      · rw [if_neg hk]
        have hpa : rowKeyEq pid b a = false := by
          simp only [rowKeyEq, ha']
          simpa using hk
        have hpu : rowKeyEq pid b (updRow a it) = false := by
          simpa [rowKeyEq, rowKey_updRow, ha'] using hpa
        simp [List.find?, hpa, hpu]
    · rw [if_neg ha]
      by_cases hpa : rowKeyEq pid b a = true
      · have hk : (itemKey it == (pid, b)) = false := by
          by_contra hcon
          rw [Bool.not_eq_false] at hcon
          apply ha
          have h1 : rowKey a = (pid, b) := by simpa [rowKeyEq] using hpa
          have h2 : itemKey it = (pid, b) := by simpa using hcon
          simp [h1, h2]
        rw [hk, if_neg (by simp)]
        simp [List.find?, hpa]
      · have hpa' : rowKeyEq pid b a = false := by
          simpa using hpa
        rw [List.find?_cons_of_neg _ (by simp [hpa']), ih]
        by_cases hk : (itemKey it == (pid, b)) = true
        · rw [if_pos hk, if_pos hk, List.find?_cons_of_neg _ (by simp [hpa'])]
        · rw [if_neg hk, if_neg hk, List.find?_cons_of_neg _ (by simp [hpa'])]

theorem aggregateBatch_append_singleton (l : List OhlcvItem) (it : OhlcvItem) :
    aggregateBatch (l ++ [it]) = aggInsert (aggregateBatch l) it := by
  simp [aggregateBatch, List.foldl_append]

theorem aggFold_append_singleton (l : List OhlcvItem) (it : OhlcvItem) :
    aggFold (l ++ [it]) =
      some
        (match aggFold l with
         | some r => updRow r it
         | none => initRow it) := by
  rw [aggFold, List.foldl_append]
  cases hfl : aggFold l <;> simp [aggFold] at hfl <;> simp [hfl]

theorem aggregateBatch_find?_eq_aggFold (items : List OhlcvItem) (pid : Nat) (b : Int) :
    aggAt items pid b = aggFold (items.filter (fun it => itemKey it == (pid, b))) := by
  induction items using List.reverseRecOn with
  | nil => rfl
  | append_singleton l it ih =>
    rw [aggAt, aggregateBatch_append_singleton, aggInsert_find?, List.filter_append]
    by_cases hk : (itemKey it == (pid, b)) = true
    · rw [if_pos hk]
      simp only [List.filter_cons, List.filter_nil, hk, if_pos]
      rw [aggFold_append_singleton, ← ih]
      rfl
    · rw [if_neg hk]
      have : List.filter (fun it => itemKey it == (pid, b)) [it] = [] := by
        simp [List.filter_cons, hk]
      rw [this, List.append_nil, ← ih]
      rfl

theorem aggFold_close (l : List OhlcvItem) (r : OhlcvRow) (h : aggFold l = some r) :
    l.getLast?.map (·.price) = some r.close := by
  induction l using List.reverseRecOn with
  | nil => simp [aggFold] at h
  | append_singleton t it ih =>
    rw [aggFold_append_singleton] at h
    rw [List.getLast?_concat]
    cases hfl : aggFold t <;> rw [hfl] at h <;>
      simp only [Option.some.injEq] at h <;> subst h <;> rfl

theorem writtenOpen_eq (store : List Candle) (items : List OhlcvItem) (pid : Nat) (b : Int) :
    writtenOpen store items pid b =
      (aggAt items pid b).map
        (fun r => (fetchPrevClose store r.pool_id r.bucket_start).getD r.close) := by
  rw [writtenOpen, rowsWithOpens, List.find?_map, aggAt]
  rw [Option.map_map]
  rfl

theorem aggAt_key {items : List OhlcvItem} {pid : Nat} {b : Int} {r : OhlcvRow}
    (h : aggAt items pid b = some r) : r.pool_id = pid ∧ r.bucket_start = b := by
  have := List.find?_some h
  have h2 : rowKey r = (pid, b) := by simpa [rowKeyEq] using this
  rw [rowKey, Prod.mk.injEq] at h2
  exact h2

/-- C2 amended: in every flushed OHLCV batch, for each key `(pool_id, minute)`
with no previous-minute candle in storage, the row written for that key has
`open` equal to the *last* observed price of that minute in the batch (the
batch close for that key — `openVal = prevClose ?? r.close`), not the first;
when a previous-minute candle exists, `open` is its close. -/
theorem flushOHLCV_open_rule (store : List Candle) (items : List OhlcvItem)
    (pid : Nat) (b : Int) (r : OhlcvRow) (hr : aggAt items pid b = some r) :
    (fetchPrevClose store pid b = none →
      writtenOpen store items pid b = some r.close ∧
      lastObservedPrice items pid b = some r.close) ∧
    ∀ c, fetchPrevClose store pid b = some c →
      writtenOpen store items pid b = some c := by
  obtain ⟨hp, hb⟩ := aggAt_key hr
  have hw : writtenOpen store items pid b =
      some ((fetchPrevClose store pid b).getD r.close) := by
    rw [writtenOpen_eq, hr, Option.map_some', hp, hb]
  constructor
  · intro hnone
    refine ⟨by rw [hw, hnone]; rfl, ?_⟩
    have hagg := aggregateBatch_find?_eq_aggFold items pid b
    rw [hagg] at hr
    exact aggFold_close _ _ hr
  · intro c hc
    rw [hw, hc]
    rfl

/-- Witness for the amended C2 theorem: a singleton batch with price 2 and no
previous-minute candle writes `open = 2`. -/
theorem flushOHLCV_open_rule_witness :
    writtenOpen [] [⟨1, 0, 2, 0, 0, none⟩] 1 0 = some 2 ∧
    lastObservedPrice [⟨1, 0, 2, 0, 0, none⟩] 1 0 = some 2 :=
  (flushOHLCV_open_rule [] [⟨1, 0, 2, 0, 0, none⟩] 1 0
    ⟨1, 0, 2, 2, 2, 0, 0, none⟩ (by decide)).1 (by decide)

/-- C2 counterexample: with no previous-minute candle in storage and a batch
holding two prices (1 then 2) for the same `(pool_id, minute)`, the flush
writes `open = 2` (the batch close) while the first observed price of the
minute is 1 — the claim that `open` equals the first observed price fails. -/
theorem flushOHLCV_open_not_first_price :
    (findCandle
        (flushOHLCV [] [⟨1, 0, 1, 0, 0, none⟩, ⟨1, 0, 2, 0, 0, none⟩]) 1 0).map
        (·.open_) = some 2 ∧
    specFirstObservedPrice [⟨1, 0, 1, 0, 0, none⟩, ⟨1, 0, 2, 0, 0, none⟩] 1 0 = some 1 ∧
    fetchPrevClose [] 1 0 = none ∧ (2 : ℚ) ≠ 1 := by decide

theorem mergeCandle_bounds {c : Candle} {r : OhlcvRow}
    (hc : candleBoundsAmended c)
    (hr : r.low ≤ r.close ∧ r.close ≤ r.high ∧ r.low ≤ r.high ∧ 0 ≤ r.volume_zig) :
    candleBoundsAmended (mergeCandle c r) := by
  obtain ⟨hc1, hc2, hc3, hc4, -⟩ := hc
  obtain ⟨hr1, hr2, hr3, hr4⟩ := hr
  refine ⟨?_, ?_, ?_, ?_, Nat.zero_le _⟩
  · exact le_trans (min_le_right _ _) hr1
  · exact le_trans hr2 (le_max_right _ _)
  · exact le_trans (min_le_right _ _) (le_trans hr3 (le_max_right _ _))
  · exact add_nonneg hc4 hr4

theorem upsertCandle_mem {store : List Candle} {r : OhlcvRow} {o : ℚ} {c : Candle}
    (hc : c ∈ upsertCandle store r o)
    (hstore : ∀ x ∈ store, candleBoundsAmended x)
    (hrow : r.low ≤ r.close ∧ r.close ≤ r.high ∧ r.low ≤ r.high ∧ 0 ≤ r.volume_zig) :
    candleBoundsAmended c := by
  rw [upsertCandle] at hc
  split at hc
  · obtain ⟨x, hx, hxc⟩ := List.mem_map.mp hc
    by_cases hkey : candleKeyEq r.pool_id r.bucket_start x = true
    · rw [if_pos hkey] at hxc
      exact hxc ▸ mergeCandle_bounds (hstore x hx) hrow
    · rw [if_neg hkey] at hxc
      exact hxc ▸ hstore x hx
  · rcases List.mem_append.mp hc with h | h
    · exact hstore c h
    · rw [List.mem_singleton] at h
      subst h
      exact ⟨hrow.1, hrow.2.1, hrow.2.2.1, hrow.2.2.2, Nat.zero_le _⟩

theorem foldl_upsert_preserves (ps : List (OhlcvRow × ℚ)) (store : List Candle)
    (hstore : ∀ x ∈ store, candleBoundsAmended x)
    (hrows : ∀ p ∈ ps,
      p.1.low ≤ p.1.close ∧ p.1.close ≤ p.1.high ∧ p.1.low ≤ p.1.high ∧ 0 ≤ p.1.volume_zig) :
    ∀ c ∈ ps.foldl (fun st p => upsertCandle st p.1 p.2) store, candleBoundsAmended c := by
  induction ps generalizing store with
  | nil => simpa using hstore
  | cons p t ih =>
    rw [List.foldl_cons]
    refine ih _ ?_ fun q hq => hrows q (List.mem_cons_of_mem p hq)
    intro x hx
    exact upsertCandle_mem hx hstore (hrows p (List.mem_cons_self p t))

/-- C6 amended: after every batch flush (starting from a store satisfying the
same bounds, with non-negative item volumes), every stored Candle1m row
satisfies `low ≤ close ≤ high`, `low ≤ high`, `volume ≥ 0` and
`trade_count ≥ 0`; the bound `low ≤ open ≤ high` claimed by C6 is dropped,
since the prior-close rule can place `open` outside `[low, high]`. -/
theorem flushOHLCV_preserves_bounds (store : List Candle) (items : List OhlcvItem)
    (hstore : ∀ c ∈ store, candleBoundsAmended c)
    (hvol : ∀ it ∈ items, 0 ≤ it.vol_zig) :
    ∀ c ∈ flushOHLCV store items, candleBoundsAmended c := by
  have hrows : ∀ p ∈ rowsWithOpens store items,
      p.1.low ≤ p.1.close ∧ p.1.close ≤ p.1.high ∧ p.1.low ≤ p.1.high ∧
        0 ≤ p.1.volume_zig := by
    intro p hp
    obtain ⟨r, hr, rfl⟩ := List.mem_map.mp hp
    exact aggregateBatch_bounds items hvol r hr
  rw [flushOHLCV]
  exact foldl_upsert_preserves (rowsWithOpens store items) store hstore hrows

/-- Witness for the amended C6 theorem at a concrete store and batch. -/
theorem flushOHLCV_preserves_bounds_witness :
    candleBoundsAmended ⟨1, 0, 1, 1, 1, 1, 0, 1, none⟩ :=
  flushOHLCV_preserves_bounds [] [⟨1, 0, 1, 0, 1, none⟩] (by simp) (by decide)
    ⟨1, 0, 1, 1, 1, 1, 0, 1, none⟩ (by decide)

/-- C6 counterexample: storage holds a candle for minute 0 with close 100
(satisfying every bound of the claim); flushing a batch with a single price 1
at minute 1 creates the row `open = 100, high = low = close = 1`, violating
the claimed invariant `low ≤ open ≤ high`. -/
theorem flushOHLCV_violates_open_bounds :
    findCandle
        (flushOHLCV [⟨1, 0, 100, 100, 100, 100, 0, 0, none⟩] [⟨1, 1, 1, 0, 1, none⟩]) 1 1 =
      some ⟨1, 1, 100, 1, 1, 1, 0, 1, none⟩ ∧
    candleBounds ⟨1, 0, 100, 100, 100, 100, 0, 0, none⟩ ∧
    ¬ candleBounds ⟨1, 1, 100, 1, 1, 1, 0, 1, none⟩ := by decide

end Degenter

namespace Degenter

/-! ### Theorems about the block processor (claim C4) -/

theorem runTask_pools (s : BPState) (p : String) : (runTask s p).pools = s.pools := by
  by_cases h : p ∈ s.pools <;> simp [runTask, h]

theorem runTasks_pools (s : BPState) (ps : List String) :
    (runTasks s ps).pools = s.pools := by
  induction ps generalizing s with
  | nil => rfl
  | cons p t ih =>
    simp only [runTasks, List.foldl_cons] at ih ⊢
    rw [ih, runTask_pools]

theorem runTasks_trace (s : BPState) (ps : List String) :
    (runTasks s ps).trace = s.trace ++ taskEvents s.pools ps := by
  induction ps generalizing s with
  | nil => simp [runTasks, taskEvents]
  | cons p t ih =>
    simp only [runTasks, List.foldl_cons] at ih ⊢
    rw [ih, taskEvents]
    by_cases h : p ∈ s.pools <;> simp [runTask, h]

theorem taskEvents_mem {pools ps : List String} {e : BPEvent}
    (h : e ∈ taskEvents pools ps) :
    (∃ q, e = BPEvent.taskRun q) ∨ ∃ q, e = BPEvent.tradeWrite q ∧ q ∈ pools := by
  induction ps with
  | nil => simp [taskEvents] at h
  | cons p t ih =>
    rw [taskEvents] at h
    rcases List.mem_append.mp h with h1 | h2
    · by_cases hp : p ∈ pools
      · rw [if_pos hp] at h1
        rcases List.mem_cons.mp h1 with rfl | h1'
        · exact Or.inl ⟨p, rfl⟩
        · rw [List.mem_singleton] at h1'
          exact Or.inr ⟨p, h1', hp⟩
      · rw [if_neg hp] at h1
        rw [List.mem_singleton] at h1
        exact Or.inl ⟨p, h1⟩
    · exact ih h2

theorem phase1_trace (s : BPState) (ps : List String) :
    (phase1 s ps).trace = s.trace ++ ps.map BPEvent.poolUpsert := by
  induction ps generalizing s with
  | nil => simp [phase1]
  | cons p t ih =>
    simp only [phase1, List.foldl_cons] at ih ⊢
    rw [ih]
    simp

theorem phase1_pools (s : BPState) (ps : List String) (q : String) :
    q ∈ (phase1 s ps).pools ↔ q ∈ s.pools ∨ q ∈ ps := by
  induction ps generalizing s with
  | nil => simp [phase1]
  | cons p t ih =>
    simp only [phase1, List.foldl_cons] at ih ⊢
    rw [ih]
    by_cases hp : p ∈ s.pools
    · simp only [if_pos hp, List.mem_cons]
      constructor
      · tauto
      · rintro (h | rfl | h)
        · exact Or.inl h
        · exact Or.inl hp
        · exact Or.inr h
    · simp only [if_neg hp, List.mem_append, List.mem_singleton, List.mem_cons]
      tauto

theorem scan_decomp (m : Nat) (txs : List Tx) (pt pd : List String) (st : BPState) :
    ∃ evs : List BPEvent,
      (txs.foldl (scanTx m) ⟨pt, pd, st⟩).st.pools = st.pools ∧
      (txs.foldl (scanTx m) ⟨pt, pd, st⟩).st.trace = st.trace ++ evs ∧
      ∀ e ∈ evs,
        (∃ q, e = BPEvent.taskRun q) ∨ ∃ q, e = BPEvent.tradeWrite q ∧ q ∈ st.pools := by
  induction txs generalizing pt pd st with
  | nil => exact ⟨[], rfl, by simp, by simp⟩
  | cons tx rest ih =>
    simp only [List.foldl_cons, scanTx]
    by_cases hflush : m ≤ (pd ++ tx.p2).length
    · rw [if_pos hflush]
      obtain ⟨evs, hp, ht, he⟩ := ih (pt ++ tx.newPools) [] (runTasks st (pd ++ tx.p2))
      refine ⟨taskEvents st.pools (pd ++ tx.p2) ++ evs, ?_, ?_, ?_⟩
      · rw [hp, runTasks_pools]
      · rw [ht, runTasks_trace, List.append_assoc]
      · intro e he'
        rcases List.mem_append.mp he' with h1 | h2
        · exact taskEvents_mem h1
        · have := he e h2
          rwa [runTasks_pools] at this
    · rw [if_neg hflush]
      exact ih (pt ++ tx.newPools) (pd ++ tx.p2) st

theorem scan_no_flush (m : Nat) (txs : List Tx) (pt pd : List String) (st : BPState)
    (h : pd.length + (txs.flatMap (·.p2)).length < m) :
    txs.foldl (scanTx m) ⟨pt, pd, st⟩ =
      ⟨pt ++ txs.flatMap (·.newPools), pd ++ txs.flatMap (·.p2), st⟩ := by
  induction txs generalizing pt pd with
  | nil => simp
  | cons tx rest ih =>
    rw [List.flatMap_cons, List.length_append] at h
    simp only [List.foldl_cons, scanTx]
    rw [if_neg (by rw [List.length_append]; omega)]
    rw [ih (pt ++ tx.newPools) (pd ++ tx.p2) (by rw [List.length_append]; omega)]
    simp [List.flatMap_cons, List.append_assoc]

/-- C4 amended: (a) whenever the interim task flush never fires during the scan
(the block's phase-2 task count stays below `MAX_PENDING_TASKS`), the Phase-1
pool upsert of every pool created in the block precedes every phase-2 task run
for that pool; and (b) unconditionally — interim flush or not — a Trade row is
written for a pool not previously in the datastore only after the Phase-1 pool
upsert for that pool (a phase-2 task running before the Pool row exists skips
its Trade write). -/
theorem processHeight_pool_ordering (m : Nat) (pools0 : List String) (txs : List Tx)
    (p : String) :
    ((txs.flatMap (·.p2)).length < m → p ∈ txs.flatMap (·.newPools) →
      upsertBeforeEveryTask (processHeight m pools0 txs).trace p) ∧
    (p ∉ pools0 →
      ∀ i : Nat, ((processHeight m pools0 txs).trace)[i]? = some (BPEvent.tradeWrite p) →
        ∃ j, j < i ∧ ((processHeight m pools0 txs).trace)[j]? = some (BPEvent.poolUpsert p)) := by
  constructor
  · intro hm hp
    have hscan : scanBlock m pools0 txs =
        ⟨txs.flatMap (·.newPools), txs.flatMap (·.p2), ⟨pools0, []⟩⟩ :=
      scan_no_flush m txs [] [] ⟨pools0, []⟩ (by simpa using hm)
    unfold upsertBeforeEveryTask processHeight
    rw [hscan]
    dsimp only
    rw [runTasks_trace, phase1_trace]
    dsimp only
    simp only [List.nil_append]
    intro i hi j hj hti htj
    by_cases hiL : i < ((txs.flatMap (·.newPools)).map BPEvent.poolUpsert).length
    · exfalso
      rw [List.getElem?_append, if_pos hiL] at hti
      have hmem := List.getElem?_mem hti
      obtain ⟨q, -, hq⟩ := List.mem_map.mp hmem
      simp at hq
    · by_cases hjL : j < ((txs.flatMap (·.newPools)).map BPEvent.poolUpsert).length
      · omega
      · exfalso
        rw [List.getElem?_append, if_neg hjL] at htj
        have hmem := List.getElem?_mem htj
        rcases taskEvents_mem hmem with ⟨q, hq⟩ | ⟨q, hq, -⟩ <;> simp at hq
  · intro hp0 i hti
    obtain ⟨evs, hpools, htrace, hevs⟩ := scan_decomp m txs [] [] ⟨pools0, []⟩
    have hpools' : (scanBlock m pools0 txs).st.pools = pools0 := hpools
    have htrace' : (scanBlock m pools0 txs).st.trace = evs := by
      simpa using htrace
    have hevs' : ∀ e ∈ evs,
        (∃ q, e = BPEvent.taskRun q) ∨ ∃ q, e = BPEvent.tradeWrite q ∧ q ∈ pools0 :=
      hevs
    unfold processHeight at hti ⊢
    rw [runTasks_trace, phase1_trace, htrace', List.append_assoc] at hti ⊢
    by_cases hi1 : i < evs.length
    · exfalso
      rw [List.getElem?_append, if_pos hi1] at hti
      have hmem := List.getElem?_mem hti
      rcases hevs' _ hmem with ⟨q, hq⟩ | ⟨q, hq, hqp⟩
      · simp at hq
      · simp only [BPEvent.tradeWrite.injEq] at hq
        subst hq
        exact absurd hqp hp0
    · rw [List.getElem?_append, if_neg hi1, List.getElem?_append] at hti
      by_cases hi2 : i - evs.length <
          ((scanBlock m pools0 txs).poolTasks.map BPEvent.poolUpsert).length
      · exfalso
        rw [if_pos hi2] at hti
        have hmem := List.getElem?_mem hti
        obtain ⟨q, -, hq⟩ := List.mem_map.mp hmem
        simp at hq
      · rw [if_neg hi2] at hti
        have hmem := List.getElem?_mem hti
        rcases taskEvents_mem hmem with ⟨q, hq⟩ | ⟨q, hq, hqpools⟩
        · simp at hq
        · simp only [BPEvent.tradeWrite.injEq] at hq
          subst hq
          have hpt : p ∈ (scanBlock m pools0 txs).poolTasks := by
            rcases (phase1_pools (scanBlock m pools0 txs).st
                (scanBlock m pools0 txs).poolTasks p).mp hqpools with h | h
            · rw [hpools'] at h
              exact absurd h hp0
            · exact h
          obtain ⟨k, hk⟩ := List.mem_iff_getElem?.mp
            (List.mem_map_of_mem BPEvent.poolUpsert hpt)
          have hklen : k <
              ((scanBlock m pools0 txs).poolTasks.map BPEvent.poolUpsert).length := by
            rcases List.getElem?_eq_some_iff.mp hk with ⟨hlt, -⟩
            exact hlt
          refine ⟨evs.length + k, by omega, ?_⟩
          rw [List.getElem?_append, if_neg (by omega), List.getElem?_append,
            if_pos (by omega)]
          simpa using hk

/-- Witness for the amended C4 theorem: with the cap not reached
(`maxPending = 2`, one phase-2 task), the pool upsert precedes the task run,
and the trade write at index 2 is preceded by the pool upsert at index 0. -/
theorem processHeight_pool_ordering_witness :
    upsertBeforeEveryTask (processHeight 2 [] [⟨["P"], ["P"]⟩]).trace "P" ∧
    ∃ j : Nat, j < 2 ∧
      ((processHeight 2 [] [⟨["P"], ["P"]⟩]).trace)[j]? = some (BPEvent.poolUpsert "P") :=
  ⟨(processHeight_pool_ordering 2 [] [⟨["P"], ["P"]⟩] "P").1 (by decide) (by decide),
   (processHeight_pool_ordering 2 [] [⟨["P"], ["P"]⟩] "P").2 (by decide) 2 (by decide)⟩

/-- C4 counterexample: with `MAX_PENDING_TASKS = 1` (the cap is an environment
knob, `BLOCK_PROC_MAX_TASKS`), a block whose single tx creates pool "P" and
provides liquidity to it flushes the phase-2 task during the scan, before
Phase 1 runs: the task for "P" runs (and skips its Trade) *before* the pool
upsert, so the claim that Phase 1 always completes before every phase-2 task
for the newly created pool is false. -/
theorem processHeight_task_before_upsert :
    (processHeight 1 [] [⟨["P"], ["P"]⟩]).trace =
      [BPEvent.taskRun "P", BPEvent.poolUpsert "P"] ∧
    ¬ upsertBeforeEveryTask (processHeight 1 [] [⟨["P"], ["P"]⟩]).trace "P" := by
  decide

end Degenter

namespace Degenter

/-! ### Theorems about prices (claim C5) -/

/-- C5: for a native-quoted pool with base exponent `e`, a reserves list whose
first base entry has raw amount `R_b > 0` and whose first `uzig` entry has raw
amount `R_q > 0` yields `price = (R_q / 10^6) / (R_b / 10^e)`; the price is
`null` when either reserve is missing or zero; and the caller's guard upserts
a Price row only for a (finite) strictly positive value. -/
theorem priceFromReserves_correct (d : String) (e : Nat) (rs : List Reserve) :
    (∀ rb rq, rs.find? (fun r => r.denom == d) = some rb →
      rs.find? (fun r => r.denom == "uzig") = some rq →
      0 < rb.amount_base → 0 < rq.amount_base →
      priceFromReserves_UZIGQuote d e rs =
        some (((rq.amount_base : ℚ) / 10 ^ 6) / ((rb.amount_base : ℚ) / 10 ^ e))) ∧
    (rs.find? (fun r => r.denom == d) = none →
      priceFromReserves_UZIGQuote d e rs = none) ∧
    (rs.find? (fun r => r.denom == "uzig") = none →
      priceFromReserves_UZIGQuote d e rs = none) ∧
    (∀ rb, rs.find? (fun r => r.denom == d) = some rb → rb.amount_base = 0 →
      priceFromReserves_UZIGQuote d e rs = none) ∧
    (∀ rq, rs.find? (fun r => r.denom == "uzig") = some rq → rq.amount_base = 0 →
      priceFromReserves_UZIGQuote d e rs = none) ∧
    (shouldUpsertPrice (priceFromReserves_UZIGQuote d e rs) = true →
      ∃ p, priceFromReserves_UZIGQuote d e rs = some p ∧ 0 < p) := by
  refine ⟨?_, ?_, ?_, ?_, ?_, ?_⟩
  · intro rb rq hrb hrq hb hq
    rw [priceFromReserves_UZIGQuote, hrb, hrq]
    dsimp only
    rw [if_pos ⟨hb, hq⟩]
    rw [if_pos ⟨div_pos (by exact_mod_cast hb) (by positivity),
      div_pos (by exact_mod_cast hq) (by positivity)⟩]
  · intro h
    rw [priceFromReserves_UZIGQuote, h]
  · intro h
    cases hrb : rs.find? (fun r => r.denom == d) <;>
      rw [priceFromReserves_UZIGQuote, hrb, h]
  · intro rb hrb hz
    cases hrq : rs.find? (fun r => r.denom == "uzig")
    · rw [priceFromReserves_UZIGQuote, hrb, hrq]
    · rw [priceFromReserves_UZIGQuote, hrb, hrq]
      dsimp only
      rw [if_neg (by simp [hz])]
  · intro rq hrq hz
    cases hrb : rs.find? (fun r => r.denom == d)
    · rw [priceFromReserves_UZIGQuote, hrb, hrq]
    · rw [priceFromReserves_UZIGQuote, hrb, hrq]
      dsimp only
      rw [if_neg (by simp [hz])]
  · intro h
    cases hpr : priceFromReserves_UZIGQuote d e rs with
    | none => rw [hpr] at h; simp [shouldUpsertPrice] at h
    | some p =>
      rw [hpr] at h
      simp only [shouldUpsertPrice, decide_eq_true_eq] at h
      exact ⟨p, rfl, h⟩

/-- Witness for C5 at concrete reserves: base 1000 with exponent 3, uzig 2000
gives `price = (2000/10^6)/(1000/10^3) = 1/500`. -/
theorem priceFromReserves_correct_witness :
    priceFromReserves_UZIGQuote "tkn" 3 [⟨"tkn", 1000⟩, ⟨"uzig", 2000⟩] =
      some (((2000 : ℚ) / 10 ^ 6) / ((1000 : ℚ) / 10 ^ 3)) :=
  (priceFromReserves_correct "tkn" 3 [⟨"tkn", 1000⟩, ⟨"uzig", 2000⟩]).1
    ⟨"tkn", 1000⟩ ⟨"uzig", 2000⟩ (by decide) (by decide) (by decide) (by decide)

end Degenter

namespace Degenter

/-! ### Theorems about the trades writer (claim C7) -/

theorem hasTradeKey_insertTradeRow {tbl : List TradeRow} {k} (t : TradeRow)
    (h : hasTradeKey tbl k = true) : hasTradeKey (insertTradeRow tbl t) k = true := by
  rw [insertTradeRow]
  split
  · exact h
  · rw [hasTradeKey, List.any_append]
    rw [hasTradeKey] at h
    rw [h]
    rfl

theorem hasTradeKey_self (tbl : List TradeRow) (t : TradeRow) :
    hasTradeKey (insertTradeRow tbl t) (tradeKey t) = true := by
  rw [insertTradeRow]
  split
  · assumption
  · rw [hasTradeKey, List.any_append]
    simp

theorem insertTrades_hasTradeKey_mono {tbl : List TradeRow} {k} (rows : List TradeRow)
    (h : hasTradeKey tbl k = true) : hasTradeKey (insertTrades tbl rows) k = true := by
  induction rows generalizing tbl with
  | nil => exact h
  | cons r rest ih =>
    simp only [insertTrades, List.foldl_cons] at ih ⊢
    exact ih (hasTradeKey_insertTradeRow r h)

theorem insertTrades_key_present (tbl : List TradeRow) (rows : List TradeRow) :
    ∀ t ∈ rows, hasTradeKey (insertTrades tbl rows) (tradeKey t) = true := by
  induction rows generalizing tbl with
  | nil => simp
  | cons r rest ih =>
    intro t ht
    simp only [insertTrades, List.foldl_cons]
    rcases List.mem_cons.mp ht with rfl | hmem
    · exact insertTrades_hasTradeKey_mono rest (hasTradeKey_self tbl t)
    · exact ih (insertTradeRow tbl r) t hmem

theorem insertTrades_all_present_noop (tbl : List TradeRow) (rows : List TradeRow)
    (h : ∀ t ∈ rows, hasTradeKey tbl (tradeKey t) = true) :
    insertTrades tbl rows = tbl := by
  induction rows with
  | nil => rfl
  | cons r rest ih =>
    simp only [insertTrades, List.foldl_cons] at ih ⊢
    rw [insertTradeRow, if_pos (h r (List.mem_cons_self r rest))]
    exact ih fun t ht => h t (List.mem_cons_of_mem r ht)

/-- C7: inserting a Trade row whose natural key
`(created_at, tx_hash, pool_id, msg_index)` is already present leaves the
trades table unchanged, and re-running the same batch insert (re-processing a
height produces the same rows) inserts nothing new. -/
theorem trades_conflict_do_nothing (tbl : List TradeRow) (t : TradeRow)
    (rows : List TradeRow) :
    (hasTradeKey tbl (tradeKey t) = true → insertTradeRow tbl t = tbl) ∧
    insertTrades (insertTrades tbl rows) rows = insertTrades tbl rows := by
  constructor
  · intro h
    rw [insertTradeRow, if_pos h]
  · exact insertTrades_all_present_noop _ rows (insertTrades_key_present tbl rows)

/-- Witness for C7: a duplicate-key row (differing payload) is ignored, and
replaying a one-row batch is a no-op. -/
theorem trades_conflict_do_nothing_witness :
    insertTradeRow [⟨1, "h", 1, 0, "a"⟩] ⟨1, "h", 1, 0, "b"⟩ = [⟨1, "h", 1, 0, "a"⟩] ∧
    insertTrades (insertTrades [] [⟨1, "h", 1, 0, "a"⟩]) [⟨1, "h", 1, 0, "a"⟩] =
      insertTrades [] [⟨1, "h", 1, 0, "a"⟩] :=
  ⟨(trades_conflict_do_nothing [⟨1, "h", 1, 0, "a"⟩] ⟨1, "h", 1, 0, "b"⟩ []).1 (by decide),
   (trades_conflict_do_nothing [] ⟨1, "h", 1, 0, "b"⟩ [⟨1, "h", 1, 0, "a"⟩]).2⟩

end Degenter

namespace Degenter

/-! ### Theorems about token stubs (claim C10) -/

/-- C10 counterexample: creating the minimal stub for a fresh denom inserts the
row with `exponent = 0`, not the schema default 6 (the INSERT supplies the
column explicitly: `INSERT INTO tokens(denom, exponent) VALUES ($1, 0)`). -/
theorem upsertTokenMinimal_not_default_six :
    (upsertTokenMinimal [] "foo" 1).1 = [⟨"foo", 0, 1⟩] ∧
    ((upsertTokenMinimal [] "foo" 1).1.find? (fun t => t.denom == "foo")) =
      some ⟨"foo", 0, 1⟩ ∧
    (0 : Nat) ≠ 6 := by decide

/-- C10 amended: for every denom not yet present in the tokens table,
`upsertTokenMinimal` creates the Token row with `exponent = 0` (the schema's
column default of 6 is bypassed because the INSERT lists the column), and
returns the new id. -/
theorem upsertTokenMinimal_creates_exponent_zero (tbl : List TokenRow) (d : String)
    (id : Nat) (h : tbl.any (fun t => t.denom == d) = false) :
    (upsertTokenMinimal tbl d id).1 = tbl ++ [⟨d, 0, id⟩] ∧
    (upsertTokenMinimal tbl d id).2 = some id ∧
    (upsertTokenMinimal tbl d id).1.find? (fun t => t.denom == d) = some ⟨d, 0, id⟩ := by
  have hng : ¬ tbl.any (fun t => t.denom == d) = true := by
    rw [h]; exact Bool.false_ne_true
  refine ⟨?_, ?_, ?_⟩
  · rw [upsertTokenMinimal, if_neg hng]
  · rw [upsertTokenMinimal, if_neg hng]
  · rw [upsertTokenMinimal, if_neg hng]
    have hnone : tbl.find? (fun t => t.denom == d) = none := by
      rw [List.find?_eq_none]
      intro x hx hpx
      rw [List.any_eq_false] at h
      exact absurd hpx (h x hx)
    rw [List.find?_append, hnone]
    simp

/-- Witness for the amended C10 theorem on the empty table. -/
theorem upsertTokenMinimal_creates_exponent_zero_witness :
    (upsertTokenMinimal [] "zz" 3).1 = [⟨"zz", 0, 3⟩] ∧
    (upsertTokenMinimal [] "zz" 3).2 = some 3 ∧
    (upsertTokenMinimal [] "zz" 3).1.find? (fun t => t.denom == "zz") =
      some ⟨"zz", 0, 3⟩ :=
  upsertTokenMinimal_creates_exponent_zero [] "zz" 3 (by decide)

end Degenter

namespace Degenter

/-! ### Theorems about the holders refresher (claim C8) -/

theorem find?_cons_pos {α : Type} (p : α → Bool) (x : α) (l : List α) (h : p x = true) :
    List.find? p (x :: l) = some x := by
  simp [List.find?, h]

theorem find?_cons_neg {α : Type} (p : α → Bool) (x : α) (l : List α) (h : p x = false) :
    List.find? p (x :: l) = List.find? p l := by
  simp [List.find?, h]

theorem find?_replaceMap_ne (tbl : HoldersTable) (addr : String) (amt : Option Nat)
    (a : String) (h : (a == addr) = false) :
    (tbl.map (fun r => if r.1 == addr then (r.1, amt) else r)).find? (fun r => r.1 == a) =
      tbl.find? (fun r => r.1 == a) := by
  induction tbl with
  | nil => rfl
  | cons r t ih =>
    rw [List.map_cons]
    by_cases hrr : (r.1 == addr) = true
    · rw [if_pos hrr]
      by_cases hr : (r.1 == a) = true
      · exfalso
        have h1 : r.1 = addr := eq_of_beq hrr
        have h2 : r.1 = a := eq_of_beq hr
        rw [← h2, ← h1] at h
        simp at h
      · rw [find?_cons_neg (fun r : String × Option Nat => r.1 == a) _ _ (by simpa using hr),
          find?_cons_neg (fun r : String × Option Nat => r.1 == a) _ _ (by simpa using hr), ih]
    · rw [if_neg hrr]
      by_cases hr : (r.1 == a) = true
      · rw [find?_cons_pos (fun r : String × Option Nat => r.1 == a) _ _ hr, find?_cons_pos (fun r : String × Option Nat => r.1 == a) _ _ hr]
      · rw [find?_cons_neg (fun r : String × Option Nat => r.1 == a) _ _ (by simpa using hr),
          find?_cons_neg (fun r : String × Option Nat => r.1 == a) _ _ (by simpa using hr), ih]

theorem find?_replaceMap_eq (tbl : HoldersTable) (addr : String) (amt : Option Nat)
    (h : tbl.any (fun r => r.1 == addr) = true) :
    (tbl.map (fun r => if r.1 == addr then (r.1, amt) else r)).find?
        (fun r => r.1 == addr) = some (addr, amt) := by
  induction tbl with
  | nil => simp at h
  | cons r t ih =>
    rw [List.map_cons]
    by_cases hrr : (r.1 == addr) = true
    · rw [if_pos hrr]
      have hp : (((r.1, amt) : String × Option Nat).1 == addr) = true := hrr
      rw [find?_cons_pos (fun r : String × Option Nat => r.1 == addr) _ _ hp, eq_of_beq hrr]
    · rw [if_neg hrr, find?_cons_neg (fun r : String × Option Nat => r.1 == addr) _ _ (by simpa using hrr)]
      apply ih
      rw [List.any_cons] at h
      simpa [hrr] using h

theorem upsertHolder_find?_self (tbl : HoldersTable) (addr : String) (amt : Option Nat) :
    (upsertHolder tbl addr amt).find? (fun r => r.1 == addr) = some (addr, amt) := by
  rw [upsertHolder]
  split
  · exact find?_replaceMap_eq tbl addr amt (by assumption)
  · rename_i hany
    have hnone : tbl.find? (fun r => r.1 == addr) = none := by
      rw [List.find?_eq_none]
      intro x hx hpx
      exact hany (List.any_eq_true.mpr ⟨x, hx, hpx⟩)
    rw [List.find?_append, hnone]
    simp

theorem upsertHolder_find?_ne (tbl : HoldersTable) (addr : String) (amt : Option Nat)
    (a : String) (h : (a == addr) = false) :
    (upsertHolder tbl addr amt).find? (fun r => r.1 == a) =
      tbl.find? (fun r => r.1 == a) := by
  rw [upsertHolder]
  split
  · exact find?_replaceMap_ne tbl addr amt a h
  · rw [List.find?_append]
    have hne : (addr == a) = false := by
      have : ¬ a = addr := by
        intro e
        rw [e] at h
        simp at h
      simp [beq_eq_false_iff_ne]
      exact fun e => this e.symm
    cases hf : tbl.find? (fun r => r.1 == a) <;> simp [hf, hne]

theorem sweepPages_eq_foldl (tbl : HoldersTable) (pages : List OwnersPage) :
    sweepPages tbl pages =
      (pages.flatMap (·.items)).foldl
        (fun t it => upsertHolder t it.address it.amount) tbl := by
  induction pages generalizing tbl with
  | nil => rfl
  | cons pg rest ih =>
    rw [sweepPages, List.foldl_cons, List.flatMap_cons, List.foldl_append]
    exact ih (applyPage tbl pg)

theorem foldl_upsert_find? (items : List OwnerItem) (tbl : HoldersTable) (a : String) :
    (items.foldl (fun t it => upsertHolder t it.address it.amount) tbl).find?
        (fun r => r.1 == a) =
      match ((items.filter (fun it => it.address == a)).getLast?).map (·.amount) with
      | some amt => some (a, amt)
      | none => tbl.find? (fun r => r.1 == a) := by
  induction items using List.reverseRecOn with
  | nil => simp
  | append_singleton t it ih =>
    rw [List.foldl_append, List.foldl_cons, List.foldl_nil, List.filter_append]
    by_cases hit : (it.address == a) = true
    · have hfil : List.filter (fun it => it.address == a) [it] = [it] := by
        simp [List.filter_cons, hit]
      rw [hfil, List.getLast?_concat]
      have ha : it.address = a := eq_of_beq hit
      rw [← ha]
      exact upsertHolder_find?_self _ it.address it.amount
    · have hfil : List.filter (fun it => it.address == a) [it] = [] := by
        simp [List.filter_cons]
        simpa using hit
      rw [hfil, List.append_nil]
      have hne : (a == it.address) = false := by
        have : ¬ it.address = a := by
          intro e
          rw [e] at hit
          simp at hit
        simp [beq_eq_false_iff_ne]
        exact fun e => this e.symm
      rw [upsertHolder_find?_ne _ _ _ _ hne]
      exact ih

theorem find?_zeroOut (tbl : HoldersTable) (seen : List String) (a : String) :
    (zeroOutNotSeen tbl seen).find? (fun r => r.1 == a) =
      if a ∈ seen then tbl.find? (fun r => r.1 == a)
      else (tbl.find? (fun r => r.1 == a)).map (fun r => (r.1, some 0)) := by
  induction tbl with
  | nil => by_cases h : a ∈ seen <;> simp [zeroOutNotSeen, h]
  | cons r t ih =>
    rw [zeroOutNotSeen, List.map_cons]
    rw [zeroOutNotSeen] at ih
    by_cases hr : (r.1 == a) = true
    · have hra : r.1 = a := eq_of_beq hr
      by_cases hs : a ∈ seen
      · rw [if_pos hs]
        rw [if_pos (show r.1 ∈ seen by rw [hra]; exact hs)]
        rw [find?_cons_pos (fun r : String × Option Nat => r.1 == a) _ _ hr, find?_cons_pos (fun r : String × Option Nat => r.1 == a) _ _ hr]
      · rw [if_neg hs]
        rw [if_neg (show ¬ r.1 ∈ seen by rw [hra]; exact hs)]
        have hp : (((r.1, some 0) : String × Option Nat).1 == a) = true := hr
        rw [find?_cons_pos (fun r : String × Option Nat => r.1 == a) _ _ hp, find?_cons_pos (fun r : String × Option Nat => r.1 == a) _ _ hr]
        rfl
    · have hhead : ((if r.1 ∈ seen then r else (r.1, some 0)).1 == a) = false := by
        by_cases hsr : r.1 ∈ seen <;> simp [hsr] <;> simpa using hr
      rw [find?_cons_neg (fun r : String × Option Nat => r.1 == a) _ _ hhead,
        find?_cons_neg (fun r : String × Option Nat => r.1 == a) _ _ (by simpa using hr), ih]

theorem lastReported_eq_none_iff (pages : List OwnersPage) (a : String) :
    lastReported pages a = none ↔ a ∉ seenList pages := by
  rw [lastReported, seenList]
  constructor
  · intro h hmem
    obtain ⟨it, hit, ha⟩ := List.mem_map.mp hmem
    have hfil : it ∈ (pages.flatMap (·.items)).filter (fun it => it.address == a) := by
      rw [List.mem_filter]
      exact ⟨hit, by simp [ha]⟩
    cases hg : ((pages.flatMap (·.items)).filter (fun it => it.address == a)).getLast? with
    | none =>
      rw [List.getLast?_eq_none_iff] at hg
      rw [hg] at hfil
      cases hfil
    | some x =>
      rw [hg] at h
      simp at h
  · intro h
    have hfil : (pages.flatMap (·.items)).filter (fun it => it.address == a) = [] := by
      rw [List.filter_eq_nil_iff]
      intro it hit hpit
      exact h (List.mem_map.mpr ⟨it, hit, eq_of_beq hpit⟩)
    rw [hfil]
    rfl

/-- C8 amended: after `refreshHoldersOnce(token)` completes, an address has a
positive stored `balance_base` exactly when the sweep saw it with a positive
(digit-string) balance as its last report — addresses seen only with balance 0
or a non-digit balance are in the `seen` union but are not positive, so the
positive set equals the seen set only up to those; and the upserted
`holders_count` equals the number of holders rows with `balance_base > 0`. -/
theorem refreshHolders_characterization (tbl : HoldersTable) (pages : List OwnersPage) :
    (∀ a, isPositiveHolder (refreshHoldersOnce tbl pages).1 a = true ↔
      ∃ n, lastReported pages a = some (some n) ∧ 0 < n) ∧
    (refreshHoldersOnce tbl pages).2 = positiveCount (refreshHoldersOnce tbl pages).1 := by
  refine ⟨?_, rfl⟩
  intro a
  have hfind := find?_zeroOut (sweepPages tbl pages) (seenList pages) a
  have hswe := foldl_upsert_find? (pages.flatMap (·.items)) tbl a
  rw [← sweepPages_eq_foldl] at hswe
  by_cases hs : a ∈ seenList pages
  · rw [if_pos hs] at hfind
    have hne : ¬ lastReported pages a = none := by
      rw [lastReported_eq_none_iff]
      simpa using hs
    cases hlast : lastReported pages a with
    | none => exact absurd hlast hne
    | some amt =>
      rw [lastReported] at hlast
      rw [hlast] at hswe
      rw [hswe] at hfind
      rw [isPositiveHolder, refreshHoldersOnce] at *
      rw [hfind]
      cases amt with
      | none => simp [isPositiveBal, lastReported, hlast]
      | some m =>
        simp only [isPositiveBal, decide_eq_true_eq, lastReported, hlast]
        constructor
        · intro hm
          exact ⟨m, rfl, hm⟩
        · rintro ⟨n, hn, hpos⟩
          simp only [Option.some.injEq] at hn
          rw [← hn] at hpos
          exact hpos
  · rw [if_neg hs] at hfind
    have hlast : lastReported pages a = none := (lastReported_eq_none_iff pages a).mpr hs
    rw [isPositiveHolder, refreshHoldersOnce]
    rw [hfind]
    cases hsw : (sweepPages tbl pages).find? (fun r => r.1 == a) with
    | none => simp [hlast]
    | some r => simp [isPositiveBal, hlast]

/-- Witness for the amended C8 theorem: address "b" reported with balance 5 is
positive after the sweep, and its last report is 5. -/
theorem refreshHolders_characterization_witness :
    isPositiveHolder (refreshHoldersOnce [] [⟨[⟨"b", some 5⟩]⟩]).1 "b" = true ↔
      ∃ n, lastReported [⟨[⟨"b", some 5⟩]⟩] "b" = some (some n) ∧ 0 < n :=
  (refreshHolders_characterization [] [⟨[⟨"b", some 5⟩]⟩]).1 "b"

/-- C8 counterexample: a page item reporting address "a" with balance "0" puts
"a" into the sweep's `seen` union while its stored `balance_base` is 0, so the
set of positive-balance addresses is not equal to the union of addresses seen
across the sweep's pages. -/
theorem refreshHolders_seen_not_positive :
    ¬ (isPositiveHolder (refreshHoldersOnce [] [⟨[⟨"a", some 0⟩]⟩]).1 "a" = true ↔
      "a" ∈ seenList [⟨[⟨"a", some 0⟩]⟩]) := by
  decide

end Degenter

namespace Degenter

/-! ### Theorems about the RPC/LCD client (claim C9) -/

theorem httpAttempts_spec (jit : Nat → Nat) (r : HttpResp) (rest : List HttpResp)
    (b : String) (hr : retriableStatus r = false) (hb : r.body = some b) :
    ∀ pre : List HttpResp, (∀ x ∈ pre, retriableStatus x = true ∨ x.body = none) →
      ∀ n, httpAttempts jit n (pre ++ r :: rest) =
        (FetchOutcome.ok (n + pre.length) b,
          (List.range pre.length).map (fun k => backoffMs (n + k) (jit (n + k)))) := by
  intro pre
  induction pre with
  | nil =>
    intro _ n
    rw [List.nil_append]
    simp [httpAttempts, hr, hb]
  | cons x pre' ih =>
    intro hpre n
    rw [List.cons_append]
    have hx := hpre x (List.mem_cons_self x pre')
    have hnone : (if retriableStatus x then none else x.body) = none := by
      rcases hx with h1 | h1
      · simp [h1]
      · by_cases h2 : retriableStatus x = true
        · simp [h2]
        · simp [h2, h1]
    simp only [httpAttempts, hnone]
    rw [ih (fun y hy => hpre y (List.mem_cons_of_mem x hy)) (n + 1)]
    simp only [Prod.mk.injEq]
    refine ⟨congrArg₂ FetchOutcome.ok (by simp; omega) rfl, ?_⟩
    rw [List.length_cons, List.range_succ_eq_map, List.map_cons, List.map_map]
    refine congrArg₂ List.cons (by simp) ?_
    refine List.map_congr_left fun k _ => ?_
    simp only [Function.comp]
    have : n + 1 + k = n + (k + 1) := by omega
    rw [this]

/-- C9 amended: the client iterates endpoints round-robin
(`baseList[(idxRef + attempt) % baseList.length]`, cyclic in the attempt
number); on an HTTP 429 or 5xx response — and likewise on a JSON parse
failure — it retries after a backoff of `min(1000·1.5^n, 10000) + U[0,250)` ms;
any other HTTP status (including non-429 4xx) is treated as success: its body
is parsed as JSON and returned, with no fail-fast path. -/
theorem httpJSON_retry_contract (bases : List String) (idx : Nat) (jit : Nat → Nat)
    (pre : List HttpResp) (r : HttpResp) (rest : List HttpResp) (b : String)
    (hpre : ∀ x ∈ pre, retriableStatus x = true ∨ x.body = none)
    (hr : retriableStatus r = false) (hb : r.body = some b)
    (hbases : bases ≠ []) :
    httpJSON bases idx jit (pre ++ r :: rest) =
      (FetchOutcome.ok pre.length b,
        (List.range pre.length).map (fun k => backoffMs k (jit k))) ∧
    (∀ n, jit n < 250 →
      min (1000 * (3 / 2 : ℚ) ^ n) 10000 ≤ backoffMs n (jit n) ∧
      backoffMs n (jit n) < min (1000 * (3 / 2 : ℚ) ^ n) 10000 + 250) ∧
    (∀ n, endpointAt bases idx (n + bases.length) = endpointAt bases idx n) := by
  refine ⟨?_, ?_, ?_⟩
  · rw [httpJSON, if_neg (by simpa using hbases)]
    have h := httpAttempts_spec jit r rest b hr hb pre hpre 0
    simpa using h
  · intro n hj
    constructor
    · rw [backoffMs]
      exact le_add_of_nonneg_right (by positivity)
    · rw [backoffMs]
      have hc : (jit n : ℚ) < 250 := by exact_mod_cast hj
      linarith
  · intro n
    rw [endpointAt, endpointAt, ← Nat.add_assoc, Nat.add_mod_right]

/-- Witness for the amended C9 theorem: one 500 response then a 200 with body
"ok" gives success at attempt 1 after a single backoff. -/
theorem httpJSON_retry_contract_witness :
    httpJSON ["e1", "e2"] 0 (fun _ => 7) ([⟨500, some "x"⟩] ++ ⟨200, some "ok"⟩ :: []) =
      (FetchOutcome.ok 1 "ok", (List.range 1).map (fun k => backoffMs k 7)) :=
  (httpJSON_retry_contract ["e1", "e2"] 0 (fun _ => 7) [⟨500, some "x"⟩]
    ⟨200, some "ok"⟩ [] "ok" (by decide) (by decide) rfl (by simp)).1

/-- C9 counterexample: a 404 (a non-429 4xx) does not fail fast — its body is
parsed and returned as a success (`FetchOutcome.ok`); and a 404 whose body
fails to parse is retried (with the 1000 ms first backoff) rather than raised.
The claim that other 4xx responses raise immediately without retry is false. -/
theorem httpJSON_4xx_not_fail_fast :
    retriableStatus ⟨404, some "body"⟩ = false ∧
    httpJSON ["e"] 0 (fun k => k) [⟨404, some "body"⟩] =
      (FetchOutcome.ok 0 "body", []) ∧
    httpJSON ["e"] 0 (fun _ => 0) [⟨404, none⟩] =
      (FetchOutcome.retrying, [1000]) := by
  refine ⟨by decide, by decide, ?_⟩
  have hb : backoffMs 0 0 = 1000 := by
    rw [backoffMs]
    norm_num
  simp [httpJSON, httpAttempts, retriableStatus, hb]

end Degenter
